import Mathlib

/-!
Verification development for the two-party Peterson lock
(`src/Multithreading/PetersonLock.h`), the per-thread event trace buffer
(`src/atomic_free_locking/EventBuffer.h`, `src/Multithreading/EventBuffer.cpp`)
and the chronological merge (`dump_event_buffers` in both `main.cpp` files).

Machine integers are modelled as `Nat`/`Int` with explicit wrapping where the
source wraps (`& BUFFER_SIZE_MASK`).  The concurrent behaviour of the lock is
modelled as a step relation over a sequentially consistent interleaving of the
two participants; under that semantics the optional `mfence` instruction is
the identity, so the fenced and unfenced instantiations coincide.
-/

namespace Playground

/-! ## Peterson lock: sequential state and operations -/

/-- Shared state of a `PetersonLock` instance: `m_interested[2]`, indexed by
the thread id (a `bool` in the source), and `m_thread_priority`.
`m_thread_priority` holds a thread id; the spin loop of `acquire` waits while
it equals the other thread. -/
structure LockState where
  interested : Bool → Bool
  priority : Bool

/-- The entry sequence of `PetersonLock::acquire` up to the spin loop:
`assert(!m_interested[thread])` (modelled as returning `none` when the
assertion fires, i.e. the program aborts), then `m_interested[thread] = true`
and `m_thread_priority = other_thread`. -/
def acquireBegin (s : LockState) (t : Bool) : Option LockState :=
  if s.interested t then none
  else some { interested := Function.update s.interested t true, priority := !t }

/-- `PetersonLock::release`: `assert(m_interested[thread])` (modelled as
returning `none` when the assertion fires), then `m_interested[thread] = false`. -/
def release (s : LockState) (t : Bool) : Option LockState :=
  if s.interested t then
    some { s with interested := Function.update s.interested t false }
  else none

/-- The condition of the spin loop in `acquire`:
`m_interested[other_thread] && m_thread_priority == other_thread`. -/
def spinCondition (s : LockState) (t : Bool) : Bool :=
  s.interested (!t) && (s.priority == !t)

/-! ## Peterson lock: concurrent model

Each participant's control point inside the acquire/release protocol.  The
two writes at the top of `acquire` are separate plain stores in the source, so
they are separate transitions here; the spin loop is a self-loop while the
spin condition holds. -/

/-- Control point of one participant:
`idle` (outside, `m_interested[t]` clear), `setPrio` (has written
`m_interested[t] = true`, about to write `m_thread_priority`), `spin`
(both writes done, in the spin loop), `crit` (returned from `acquire`,
inside the critical section). -/
inductive PC
  | idle
  | setPrio
  | spin
  | crit
deriving DecidableEq

/-- Global state of the two-participant system: the shared lock fields plus
each participant's control point. -/
structure SysState where
  lock : LockState
  pc : Bool → PC

/-- One sequentially consistent step of either participant.  The `mfence`
between the writes and the first read of the loop condition is a no-op in
this interleaving semantics. -/
inductive Step : SysState → SysState → Prop
  | announce (s : SysState) (t : Bool) (h : s.pc t = .idle) :
      Step s ⟨⟨Function.update s.lock.interested t true, s.lock.priority⟩,
              Function.update s.pc t .setPrio⟩
  | grant (s : SysState) (t : Bool) (h : s.pc t = .setPrio) :
      Step s ⟨⟨s.lock.interested, !t⟩, Function.update s.pc t .spin⟩
  | waitSpin (s : SysState) (t : Bool) (h : s.pc t = .spin)
      (hc : spinCondition s.lock t = true) :
      Step s s
  | enter (s : SysState) (t : Bool) (h : s.pc t = .spin)
      (hc : spinCondition s.lock t = false) :
      Step s ⟨s.lock, Function.update s.pc t .crit⟩
  | releaseStep (s : SysState) (t : Bool) (h : s.pc t = .crit) :
      Step s ⟨⟨Function.update s.lock.interested t false, s.lock.priority⟩,
              Function.update s.pc t .idle⟩

/-- Initial states: both `m_interested` entries are `false` and both
participants are outside.  `m_thread_priority` is deliberately left
unconstrained, matching the constructor comment in the source. -/
def SysInit (s : SysState) : Prop :=
  (∀ t, s.lock.interested t = false) ∧ (∀ t, s.pc t = .idle)

/-- States reachable from some initial state by interleaved steps. -/
def Reachable (s : SysState) : Prop :=
  ∃ s₀, SysInit s₀ ∧ Relation.ReflTransGen Step s₀ s

/-- The inductive invariant of the Peterson protocol: a participant's
`interested` flag is set exactly while it is past `announce`, and a
participant in the critical section either entered while the other was
outside the protocol's read-sensitive region or holds the priority. -/
def Inv (s : SysState) : Prop :=
  (∀ t, s.lock.interested t = true ↔ s.pc t ≠ .idle) ∧
  (∀ t, s.pc t = .crit →
    s.pc (!t) = .idle ∨ s.pc (!t) = .setPrio ∨ s.lock.priority = t)

theorem inv_init {s : SysState} (h : SysInit s) : Inv s := by
  obtain ⟨hi, hp⟩ := h
  constructor
  · intro t
    rw [hi t, hp t]
    simp
  · intro t ht
    rw [hp t] at ht
    exact absurd ht (by simp)

theorem inv_step {s s' : SysState} (hi : Inv s) (hs : Step s s') : Inv s' := by
  obtain ⟨h1, h2⟩ := hi
  cases hs with
  | announce t ht =>
    refine ⟨fun u => ?_, fun u hu => ?_⟩
    · dsimp only
      rcases eq_or_ne u t with rfl | hut
      · simp
      · simp [Function.update_noteq hut, h1 u]
    · dsimp only at hu ⊢
      rcases eq_or_ne u t with rfl | hut
      · rw [Function.update_same] at hu
        exact absurd hu (by simp)
      · rw [Function.update_noteq hut] at hu
        have hnt : (!u) = t := by cases u <;> cases t <;> simp_all
        rw [hnt, Function.update_same]
        exact Or.inr (Or.inl rfl)
  | grant t ht =>
    refine ⟨fun u => ?_, fun u hu => ?_⟩
    · dsimp only
      rcases eq_or_ne u t with rfl | hut
      · simp [h1 u, ht]
      · simp [Function.update_noteq hut, h1 u]
    · dsimp only at hu ⊢
      rcases eq_or_ne u t with rfl | hut
      · rw [Function.update_same] at hu
        exact absurd hu (by simp)
      · rw [Function.update_noteq hut] at hu
        have hnt : (!u) = t := by cases u <;> cases t <;> simp_all
        refine Or.inr (Or.inr ?_)
        cases u <;> cases t <;> simp_all
  | waitSpin t ht hc => exact ⟨h1, h2⟩
  | enter t ht hc =>
    refine ⟨fun u => ?_, fun u hu => ?_⟩
    · dsimp only
      rcases eq_or_ne u t with rfl | hut
      · simp [h1 u, ht]
      · simp [Function.update_noteq hut, h1 u]
    · dsimp only at hu ⊢
      rcases eq_or_ne u t with rfl | hut
      · -- participant `u` just passed the spin loop: analyse the exit condition
        have hcond : s.lock.interested (!u) = false ∨ s.lock.priority = u := by
          unfold spinCondition at hc
          cases hA : s.lock.interested (!u) with
          | false => exact Or.inl rfl
          | true =>
            right
            rw [hA] at hc
            simp only [Bool.true_and] at hc
            cases u <;> cases hp : s.lock.priority <;> simp_all
        rcases hcond with hni | hpriv
        · -- the other participant is not interested, hence outside the protocol
          left
          rw [Function.update_noteq (show (!u) ≠ u by cases u <;> simp)]
          by_contra hidle
          have := (h1 (!u)).2 hidle
          simp [hni] at this
        · exact Or.inr (Or.inr hpriv)
      · -- the other participant was already critical before the step
        rw [Function.update_noteq hut] at hu
        have hnu : (!u) = t := by cases u <;> cases t <;> simp_all
        rcases h2 u hu with hx | hx | hx
        · rw [hnu, ht] at hx
          exact absurd hx (by simp)
        · rw [hnu, ht] at hx
          exact absurd hx (by simp)
        · -- the critical participant holds priority, so `t` could not pass the loop
          exfalso
          have hint : s.lock.interested (!t) = true := by
            refine (h1 (!t)).2 ?_
            have hb : (!t) = u := by cases u <;> cases t <;> simp_all
            rw [hb, hu]
            simp
          have hpri : s.lock.priority = (!t) := by
            cases u <;> cases t <;> simp_all
          unfold spinCondition at hc
          rw [hint, hpri] at hc
          simp at hc
  | releaseStep t ht =>
    refine ⟨fun u => ?_, fun u hu => ?_⟩
    · dsimp only
      rcases eq_or_ne u t with rfl | hut
      · simp
      · simp [Function.update_noteq hut, h1 u]
    · dsimp only at hu ⊢
      rcases eq_or_ne u t with rfl | hut
      · rw [Function.update_same] at hu
        exact absurd hu (by simp)
      · rw [Function.update_noteq hut] at hu
        have hnt : (!u) = t := by cases u <;> cases t <;> simp_all
        left
        rw [hnt, Function.update_same]

theorem reachable_inv {s : SysState} (h : Reachable s) : Inv s := by
  obtain ⟨s₀, h₀, hsteps⟩ := h
  induction hsteps with
  | refl => exact inv_init h₀
  | tail _ hstep ih => exact inv_step ih hstep

/-- C1: under a sequentially consistent interleaving of the two participants'
steps, in every reachable state of the acquire/release protocol at most one
participant is inside the critical section. -/
theorem c1_mutual_exclusion (s : SysState) (h : Reachable s) :
    ¬ (s.pc false = .crit ∧ s.pc true = .crit) := by
  obtain ⟨h1, h2⟩ := reachable_inv h
  rintro ⟨hc0, hc1⟩
  rcases h2 false hc0 with hx | hx | hx
  · rw [show (!false) = true by rfl, hc1] at hx
    exact absurd hx (by simp)
  · rw [show (!false) = true by rfl, hc1] at hx
    exact absurd hx (by simp)
  · rcases h2 true hc1 with hy | hy | hy
    · rw [show (!true) = false by rfl, hc0] at hy
      exact absurd hy (by simp)
    · rw [show (!true) = false by rfl, hc0] at hy
      exact absurd hy (by simp)
    · rw [hx] at hy
      exact absurd hy (by simp)

/-- A concrete initial state used by the closed witnesses below. -/
def s0c : SysState :=
  ⟨⟨fun _ => false, false⟩, fun _ => .idle⟩

theorem c1_mutual_exclusion_witness :
    Reachable s0c ∧ ¬ (s0c.pc false = .crit ∧ s0c.pc true = .crit) := by
  have hr : Reachable s0c :=
    ⟨s0c, ⟨fun _ => rfl, fun _ => rfl⟩, Relation.ReflTransGen.refl⟩
  exact ⟨hr, c1_mutual_exclusion s0c hr⟩


/-! ## Claims C2, C7, C8: acquire/release behaviour -/

/-- C2 (amended): write ordering and the exit condition of `acquire`.  In
every reachable state, a participant that has reached the priority write or
the spin loop has already set its `interested` flag; and on the transition
where `acquire` returns (spin loop exited), the loop condition
`m_interested[other] && m_thread_priority == other` is false, i.e. the other
participant is not interested or priority does not favor the other — not
necessarily both, as the original claim asserted. -/
theorem c2_acquire_order_and_exit (s s' : SysState) (t : Bool)
    (hr : Reachable s) (hs : Step s s') :
    (s.pc t = .setPrio → s.lock.interested t = true) ∧
    (s.pc t = .spin → s.lock.interested t = true) ∧
    (s.pc t = .spin → s'.pc t = .crit →
      ¬ (s.lock.interested (!t) = true ∧ s.lock.priority = !t)) := by
  obtain ⟨h1, _⟩ := reachable_inv hr
  refine ⟨fun h => (h1 t).2 (by rw [h]; simp),
          fun h => (h1 t).2 (by rw [h]; simp), fun hsp hcr => ?_⟩
  rintro ⟨hint, hpri⟩
  cases hs with
  | announce u hu =>
    rcases eq_or_ne t u with rfl | htu
    · rw [hu] at hsp
      exact absurd hsp (by simp)
    · dsimp only at hcr
      rw [Function.update_noteq htu, hsp] at hcr
      exact absurd hcr (by simp)
  | grant u hu =>
    rcases eq_or_ne t u with rfl | htu
    · rw [hu] at hsp
      exact absurd hsp (by simp)
    · dsimp only at hcr
      rw [Function.update_noteq htu, hsp] at hcr
      exact absurd hcr (by simp)
  | waitSpin u hu hc =>
    rw [hsp] at hcr
    exact absurd hcr (by simp)
  | enter u hu hc =>
    rcases eq_or_ne t u with rfl | htu
    · unfold spinCondition at hc
      rw [hint, hpri] at hc
      simp at hc
    · dsimp only at hcr
      rw [Function.update_noteq htu, hsp] at hcr
      exact absurd hcr (by simp)
  | releaseStep u hu =>
    rcases eq_or_ne t u with rfl | htu
    · rw [hu] at hsp
      exact absurd hsp (by simp)
    · dsimp only at hcr
      rw [Function.update_noteq htu, hsp] at hcr
      exact absurd hcr (by simp)

/-- State after participant `false` executed the `m_interested` write of
`acquire` from `s0c`. -/
def sA1 : SysState :=
  ⟨⟨Function.update s0c.lock.interested false true, s0c.lock.priority⟩,
   Function.update s0c.pc false .setPrio⟩

/-- State after participant `false` additionally executed the
`m_thread_priority` write. -/
def sA2 : SysState :=
  ⟨⟨sA1.lock.interested, !false⟩, Function.update sA1.pc false .spin⟩

/-- State after participant `false` passed the spin loop, i.e. its `acquire`
call returned. -/
def sA3 : SysState :=
  ⟨sA2.lock, Function.update sA2.pc false .crit⟩

theorem sA2_reachable : Reachable sA2 := by
  refine ⟨s0c, ⟨fun _ => rfl, fun _ => rfl⟩, ?_⟩
  exact Relation.ReflTransGen.tail
    (Relation.ReflTransGen.tail Relation.ReflTransGen.refl
      (Step.announce s0c false rfl))
    (Step.grant sA1 false (by decide))

/-- C2 counterexample: on an uncontended lock, participant `0` runs
`acquire` to completion; at the transition where `acquire` returns
(`spin` to `crit`), `m_thread_priority` equals the other participant, so
"priority does not favor the other participant" is false at return — refuting
the claim that, when `acquire(t)` returns, the other participant is not
interested AND priority does not favor the other participant. -/
theorem c2_counterexample :
    Reachable sA2 ∧ Step sA2 sA3 ∧ sA2.pc false = .spin ∧
      sA3.pc false = .crit ∧ sA3.lock.priority = (!false) := by
  refine ⟨sA2_reachable, Step.enter sA2 false (by decide) (by decide),
    by decide, by decide, by decide⟩

theorem c2_acquire_order_and_exit_witness :
    (Reachable sA2 ∧ Step sA2 sA3 ∧ sA2.pc false = .spin ∧
      sA3.pc false = .crit) ∧
    ((sA2.pc false = .setPrio → sA2.lock.interested false = true) ∧
     (sA2.pc false = .spin → sA2.lock.interested false = true) ∧
     (sA2.pc false = .spin → sA3.pc false = .crit →
       ¬ (sA2.lock.interested (!false) = true ∧
          sA2.lock.priority = !false))) := by
  have hstep : Step sA2 sA3 := Step.enter sA2 false (by decide) (by decide)
  exact ⟨⟨sA2_reachable, hstep, by decide, by decide⟩,
    c2_acquire_order_and_exit sA2 sA3 false sA2_reachable hstep⟩

/-- C7: `acquire` begins with `assert(!m_interested[thread])` and `release`
with `assert(m_interested[thread])`; each aborts (modelled as `none`) exactly
when its precondition is violated, so under the preconditions the abort
branch is unreachable. -/
theorem c7_assertion_aborts (s : LockState) (t : Bool) :
    (acquireBegin s t = none ↔ s.interested t = true) ∧
    (release s t = none ↔ s.interested t = false) := by
  cases h : s.interested t <;> simp [acquireBegin, release, h]

/-- C8: under the precondition that participant `t` holds the lock
(`m_interested[t]` set), `release t` clears exactly `m_interested[t]`,
leaving the other participant's flag and `m_thread_priority` unchanged. -/
theorem c8_release_frame (s : LockState) (t : Bool)
    (h : s.interested t = true) :
    ∃ s', release s t = some s' ∧ s'.interested t = false ∧
      s'.interested (!t) = s.interested (!t) ∧ s'.priority = s.priority := by
  refine ⟨{ s with interested := Function.update s.interested t false },
    by simp [release, h], ?_, ?_, rfl⟩
  · simp
  · dsimp only
    rw [Function.update_noteq (show (!t) ≠ t by cases t <;> simp)]

theorem c8_release_frame_witness :
    (LockState.mk (fun _ => true) false).interested false = true ∧
    (∃ s', release ⟨fun _ => true, false⟩ false = some s' ∧
      s'.interested false = false ∧
      s'.interested (!false) = (LockState.mk (fun _ => true) false).interested (!false) ∧
      s'.priority = (LockState.mk (fun _ => true) false).priority) :=
  ⟨rfl, c8_release_frame ⟨fun _ => true, false⟩ false rfl⟩


/-! ## Event trace buffer (`EventBuffer.h` / `EventBuffer.cpp`) -/

/-- One `Event` slot.  The format-string pointer `fmt` is modelled as
`Option Nat` (a null pointer is `none`); `explicit operator bool` tests it.
All other fields are uninitialized in the source until first written and are
never read before `fmt` is checked; the model gives them defaults. -/
structure Event where
  fmt : Option Nat := none
  timestamp : Nat := 0
  line : Nat := 0
  arg0 : Int := 0
  arg1 : Int := 0
  arg2 : Int := 0
deriving DecidableEq, Inhabited

/-- `Event::operator bool`: `!!this->fmt`. -/
def Event.written (e : Event) : Bool := e.fmt.isSome

/-- `EventBuffer::increment`: `(value + direction) & BUFFER_SIZE_MASK` with
`BUFFER_SIZE = 256`.  In the source `value` is a `uint32_t` and `direction`
is `-1` or `1`; since `256` divides `2 ^ 32`, the masked `uint32_t` sum
equals the Euclidean remainder mod `256` taken over `Int`. -/
def increment (value : Nat) (direction : Int) : Nat :=
  (((value : Int) + direction) % 256).toNat

/-- An index into the 256-slot ring.  All indices the source ever passes to
`m_event[...]` are already reduced mod 256 by `increment`; the reduction here
makes `peek` total without changing any in-range access. -/
def idx (i : Nat) : Fin 256 := ⟨i % 256, Nat.mod_lt _ (by norm_num)⟩

/-- `EventBuffer`: `m_current` (initially `BUFFER_SIZE - 1`) and the slot
array `m_event`, whose entries start with unwritten (`fmt == nullptr`)
events. -/
structure EventBuffer where
  current : Nat := 255
  events : Fin 256 → Event := fun _ => {}

/-- A freshly constructed `EventBuffer`. -/
def freshBuffer : EventBuffer := {}

/-- `EventBuffer::peek(index)`: `m_event[index]`. -/
def EventBuffer.peek (b : EventBuffer) (i : Nat) : Event := b.events (idx i)

/-- `EventBuffer::push`: advance `m_current` by one (wrapping) and overwrite
that slot. -/
def EventBuffer.push (b : EventBuffer) (e : Event) : EventBuffer :=
  { current := increment b.current 1,
    events := Function.update b.events (idx (increment b.current 1)) e }

/-- Push a whole list of events, oldest first. -/
def pushList (b : EventBuffer) (L : List Event) : EventBuffer :=
  L.foldl EventBuffer.push b

/-- `EventBuffer::ConstReverseIterator`: `m_current` and `m_increments`.
The buffer pointer carried by the source iterator is not a field here; it is
never consulted by `operator==`, and dereferencing passes the buffer
explicitly. -/
structure ConstReverseIterator where
  current : Nat := 0
  increments : Nat := 0
deriving DecidableEq

/-- `ConstReverseIterator::operator++`: move one slot towards older entries
and count the increment.  `m_increments` is a 32-bit `unsigned` in the
source, so the count wraps at `2 ^ 32 = 4294967296`. -/
def itIncr (it : ConstReverseIterator) : ConstReverseIterator :=
  { current := increment it.current (-1),
    increments := (it.increments + 1) % 4294967296 }

/-- `ConstReverseIterator::operator==`: equal slot indices, but only when at
least one side has been incremented at least once. -/
def itEq (a b : ConstReverseIterator) : Bool :=
  a.current == b.current && (a.increments != 0 || b.increments != 0)

/-- `EventBuffer::rbegin`: an un-incremented iterator at `m_current`. -/
def EventBuffer.rbegin (b : EventBuffer) : ConstReverseIterator :=
  ⟨b.current, 0⟩

/-- The do-while seek loop of `EventBuffer::rend`, with explicit fuel: from
`pos`, step forward (wrapping) until a written slot is found.  Fuel `256`
always suffices when the slot at `m_current` is written, since the loop
reaches `m_current` itself after 256 steps (proved in `seekOldest_isSome`). -/
def seekOldest (b : EventBuffer) : Nat → Nat → Option Nat
  | 0, _ => none
  | fuel + 1, pos =>
    let next := increment pos 1
    if (b.peek next).written then some next else seekOldest b fuel next

/-- `EventBuffer::rend`.  Empty-buffer special case: build an iterator at
`m_current + 1` (wrapped by an explicit compare against `BUFFER_SIZE`) and
increment it once so that it compares equal to `rbegin()`.  Otherwise seek
the oldest written entry and return an un-incremented iterator one before it
in reverse direction.  The `none` fallback of the seek is dead code
(`seekOldest_isSome`). -/
def EventBuffer.rend (b : EventBuffer) : ConstReverseIterator :=
  if (b.peek b.current).written then
    match seekOldest b 256 b.current with
    | some next => ⟨increment next (-1), 0⟩
    | none => ⟨0, 0⟩
  else
    itIncr { current := if b.current + 1 = 256 then 0 else b.current + 1,
             increments := 0 }

/-- The traversal from an iterator up to `end`, emitting each dereferenced
entry, as in `EventBuffer::dump`: stop as soon as the iterator compares equal
to `end`.  Fuel `257` never runs out on any buffer whose `rend` index is in
range: once the iterator has been incremented once, it revisits any given
index within 256 further increments with a positive increment count, at which
point the equality triggers. -/
def iterFrom (b : EventBuffer) (en : ConstReverseIterator) :
    ConstReverseIterator → Nat → List Event
  | _, 0 => []
  | it, fuel + 1 =>
    if itEq it en then [] else b.peek it.current :: iterFrom b en (itIncr it) fuel

/-- Full newest-to-oldest traversal: `rbegin()` to `rend()`. -/
def iterEvents (b : EventBuffer) : List Event :=
  iterFrom b b.rend b.rbegin 257

/-! ## Claims C5 and C9 -/

/-- A freshly constructed iterator at slot `i` (the two-argument constructor;
`m_increments` starts at zero). -/
def mkIter (i : Nat) : ConstReverseIterator := ⟨i, 0⟩

theorem itIncr_iterate_increments (it : ConstReverseIterator)
    (h : it.increments < 4294967296) (n : Nat) :
    (itIncr^[n] it).increments = (it.increments + n) % 4294967296 := by
  induction n with
  | zero =>
    simp [Nat.mod_eq_of_lt h]
  | succ n ih =>
    rw [Function.iterate_succ_apply']
    show ((itIncr^[n] it).increments + 1) % 4294967296 = _
    rw [ih]
    omega

theorem itIncr_iterate_current (it : ConstReverseIterator)
    (hlt : it.current < 256) (n : Nat) :
    (itIncr^[n] it).current = (it.current + 255 * n) % 256 := by
  induction n with
  | zero =>
    simp [Nat.mod_eq_of_lt hlt]
  | succ n ih =>
    rw [Function.iterate_succ_apply']
    show increment (itIncr^[n] it).current (-1) = _
    rw [ih]
    unfold increment
    omega

/-- C5 (amended): two freshly constructed, never-incremented iterators at the
same slot index compare unequal under `operator==`; two iterators at equal
slot indices compare equal whenever at least one of them has been incremented
a number of times that is nonzero modulo `2 ^ 32` (the wrapping width of the
`unsigned` counter `m_increments`). -/
theorem c5_iterator_equality (i j : Nat) (n m : Nat)
    (hc : (itIncr^[n] (mkIter i)).current = (itIncr^[m] (mkIter j)).current)
    (hnm : n % 4294967296 ≠ 0 ∨ m % 4294967296 ≠ 0) :
    itEq (mkIter i) (mkIter i) = false ∧
    itEq (itIncr^[n] (mkIter i)) (itIncr^[m] (mkIter j)) = true := by
  constructor
  · simp [itEq, mkIter]
  · have ha : (itIncr^[n] (mkIter i)).increments = n % 4294967296 := by
      rw [itIncr_iterate_increments (mkIter i) (by norm_num [mkIter]) n]
      simp [mkIter]
    have hb : (itIncr^[m] (mkIter j)).increments = m % 4294967296 := by
      rw [itIncr_iterate_increments (mkIter j) (by norm_num [mkIter]) m]
      simp [mkIter]
    simp only [itEq, hc, ha, hb, beq_self_eq_true, Bool.true_and,
      Bool.or_eq_true, bne_iff_ne, ne_eq]
    rcases hnm with h | h
    · exact Or.inl h
    · exact Or.inr h

/-- C5 counterexample: an iterator incremented exactly `2 ^ 32` times is back
at its starting slot index with its wrapped `m_increments` counter at zero,
so it compares UNequal to a fresh iterator at the same index — refuting the
claim that equal indices compare equal whenever at least one side has been
incremented at least once. -/
theorem c5_counterexample :
    (itIncr^[4294967296] (mkIter 0)).current = (mkIter 0).current ∧
    0 < 4294967296 ∧
    itEq (itIncr^[4294967296] (mkIter 0)) (mkIter 0) = false := by
  have hcur : (itIncr^[4294967296] (mkIter 0)).current = 0 := by
    rw [itIncr_iterate_current (mkIter 0) (by decide) 4294967296]
    norm_num [mkIter]
  have hinc : (itIncr^[4294967296] (mkIter 0)).increments = 0 := by
    rw [itIncr_iterate_increments (mkIter 0) (by decide) 4294967296]
    norm_num [mkIter]
  have hx : itIncr^[4294967296] (mkIter 0) = mkIter 0 := by
    rcases hIt : itIncr^[4294967296] (mkIter 0) with ⟨c, inc⟩
    rw [hIt] at hcur hinc
    dsimp only at hcur hinc
    rw [hcur, hinc]
    rfl
  refine ⟨by rw [hcur]; rfl, by norm_num, ?_⟩
  rw [hx]
  decide

theorem c5_iterator_equality_witness :
    ((itIncr^[1] (mkIter 0)).current = (itIncr^[0] (mkIter 255)).current ∧
      (1 % 4294967296 ≠ 0 ∨ 0 % 4294967296 ≠ 0)) ∧
    (itEq (mkIter 0) (mkIter 0) = false ∧
      itEq (itIncr^[1] (mkIter 0)) (itIncr^[0] (mkIter 255)) = true) :=
  ⟨⟨by decide, by decide⟩,
    c5_iterator_equality 0 255 1 0 (by decide) (by decide)⟩

/-- C9: on a freshly constructed buffer, `rbegin()` compares equal to
`rend()` and the newest-to-oldest traversal yields no entries. -/
theorem c9_empty_iteration :
    iterEvents freshBuffer = [] ∧
    itEq freshBuffer.rbegin freshBuffer.rend = true := by
  constructor <;> decide


/-! ## Claim C3: ring-buffer round trip -/

theorem increment_one (v : Nat) : increment v 1 = (v + 1) % 256 := by
  unfold increment
  omega

theorem increment_neg_one (v : Nat) : increment v (-1) = (v + 255) % 256 := by
  unfold increment
  omega

theorem increment_lt (v : Nat) (d : Int) : increment v d < 256 := by
  unfold increment
  omega

theorem idx_congr {i j : Nat} (h : i % 256 = j % 256) : idx i = idx j := by
  unfold idx
  exact Fin.ext h

theorem peek_congr (b : EventBuffer) {i j : Nat} (h : i % 256 = j % 256) :
    b.peek i = b.peek j := by
  unfold EventBuffer.peek
  rw [idx_congr h]

theorem seekOldest_succ (b : EventBuffer) (fuel pos : Nat) :
    seekOldest b (fuel + 1) pos =
      if (b.peek (increment pos 1)).written then some (increment pos 1)
      else seekOldest b fuel (increment pos 1) := rfl

theorem iterFrom_succ (b : EventBuffer) (en it : ConstReverseIterator)
    (fuel : Nat) :
    iterFrom b en it (fuel + 1) =
      if itEq it en then [] else b.peek it.current :: iterFrom b en (itIncr it) fuel := rfl

theorem pushList_append_singleton (b : EventBuffer) (L : List Event) (e : Event) :
    pushList b (L ++ [e]) = (pushList b L).push e := by
  simp [pushList]

theorem pushList_current (L : List Event) : ∀ b : EventBuffer, b.current < 256 →
    (pushList b L).current = (b.current + L.length) % 256 := by
  induction L with
  | nil =>
    intro b hb
    simp [pushList, Nat.mod_eq_of_lt hb]
  | cons e L ih =>
    intro b hb
    have hstep : pushList b (e :: L) = pushList (b.push e) L := by
      simp [pushList]
    rw [hstep, ih _ (by
      simp only [EventBuffer.push]
      exact increment_lt _ _)]
    show ((b.push e).current + L.length) % 256 = (b.current + (e :: L).length) % 256
    unfold EventBuffer.push
    dsimp only
    rw [increment_one]
    simp only [List.length_cons]
    omega

/-- Slot contents after a burst of pushes: for each `i` smaller than both the
number of pushes and the capacity, the slot reached by walking `i` steps back
from the final write cursor holds the `i`-th most recent pushed event. -/
theorem pushList_slot (L : List Event) : ∀ b : EventBuffer, b.current < 256 →
    ∀ i : Nat, i < L.length → i < 256 →
    (pushList b L).peek (b.current + L.length - i) =
      L.getD (L.length - 1 - i) default := by
  induction L using List.reverseRecOn with
  | nil =>
    intro b hb i hi _
    exact absurd hi (by simp)
  | append_singleton L e ih =>
    intro b hb i hi hi256
    rw [pushList_append_singleton]
    have hBc : (pushList b L).current = (b.current + L.length) % 256 :=
      pushList_current L b hb
    rcases Nat.eq_zero_or_pos i with rfl | hipos
    · -- the newest entry sits in the slot written by the final push
      unfold EventBuffer.push EventBuffer.peek
      dsimp only
      rw [idx_congr (show (b.current + (L ++ [e]).length - 0) % 256 =
            increment (pushList b L).current 1 % 256 by
          rw [hBc, increment_one]
          simp only [List.length_append, List.length_singleton]
          omega)]
      rw [Function.update_same]
      have hlen : (L ++ [e]).length - 1 - 0 = L.length := by simp
      rw [hlen,
        List.getD_eq_getElem _ _ (by simp), List.getElem_concat_length _ _ _ rfl]
    · -- older entries are untouched by the final push
      have hlt : i - 1 < L.length := by
        simp only [List.length_append, List.length_singleton] at hi
        omega
      have hLpos : 0 < L.length := by omega
      unfold EventBuffer.push EventBuffer.peek
      dsimp only
      rw [Function.update_noteq (show
          idx (b.current + (L ++ [e]).length - i) ≠
            idx (increment (pushList b L).current 1) by
        intro hcontra
        have hv := congrArg Fin.val hcontra
        unfold idx at hv
        dsimp only at hv
        rw [hBc, increment_one] at hv
        simp only [List.length_append, List.length_singleton] at hv
        omega)]
      have harg : (b.current + (L ++ [e]).length - i) % 256 =
          (b.current + L.length - (i - 1)) % 256 := by
        simp only [List.length_append, List.length_singleton]
        omega
      have hstep : (pushList b L).events (idx (b.current + (L ++ [e]).length - i)) =
          (pushList b L).peek (b.current + L.length - (i - 1)) := by
        unfold EventBuffer.peek
        rw [idx_congr harg]
      rw [hstep, ih b hb (i - 1) hlt (by omega)]
      have hidxeq : L.length - 1 - (i - 1) = (L ++ [e]).length - 1 - i := by
        simp only [List.length_append, List.length_singleton]
        omega
      rw [hidxeq,
        List.getD_append _ _ _ _ (by
          simp only [List.length_append, List.length_singleton]
          omega)]

/-- After pushing at least `BUFFER_SIZE` written events, every slot of the
ring holds a written event. -/
theorem pushList_all_written (L : List Event) (hL : 256 ≤ L.length)
    (hw : ∀ e ∈ L, e.written = true) (b : EventBuffer) (hb : b.current < 256) :
    ∀ j : Fin 256, ((pushList b L).events j).written = true := by
  intro j
  have hj : (j : Nat) < 256 := j.isLt
  set i : Nat := (b.current + L.length - j) % 256 with hidef
  have hi256 : i < 256 := Nat.mod_lt _ (by norm_num)
  have hin : i < L.length := lt_of_lt_of_le hi256 hL
  have hslot := pushList_slot L b hb i hin hi256
  have hidx : idx (b.current + L.length - i) = j := by
    apply Fin.ext
    unfold idx
    dsimp only
    omega
  have hev : (pushList b L).events j = L.getD (L.length - 1 - i) default := by
    rw [← hidx]
    exact hslot
  rw [hev, List.getD_eq_getElem _ _ (by omega)]
  exact hw _ (List.getElem_mem _)

/-- On a buffer whose every slot is written, `rend()` is the un-incremented
iterator at `m_current`: the slot after `m_current` is the oldest, and going
back one lands on `m_current` again. -/
theorem rend_all_written (b : EventBuffer) (hb : b.current < 256)
    (hw : ∀ j : Fin 256, (b.events j).written = true) :
    b.rend = ⟨b.current, 0⟩ := by
  unfold EventBuffer.rend
  have hpk : (b.peek b.current).written = true := hw _
  have hpk2 : (b.peek (increment b.current 1)).written = true := hw _
  rw [if_pos hpk]
  rw [show (256 : Nat) = 255 + 1 from rfl, seekOldest_succ, if_pos hpk2]
  have hcur : increment (increment b.current 1) (-1) = b.current := by
    rw [increment_one, increment_neg_one]
    omega
  show (⟨increment (increment b.current 1) (-1), 0⟩ : ConstReverseIterator) =
    ⟨b.current, 0⟩
  rw [hcur]

/-- Unrolling of the traversal loop towards a zero-increment `end` iterator
at index `c`: with `r` steps remaining it emits the slots `c + r`, `c + r - 1`,
..., `c + 1` (all mod 256) and stops exactly when it is back at index `c`
with a positive increment count. -/
theorem iterFrom_full (b : EventBuffer) (c : Nat) (hc : c < 256) :
    ∀ r : Nat, r ≤ 256 →
      iterFrom b ⟨c, 0⟩ ⟨(c + r) % 256, 256 - r⟩ (r + 1) =
        (List.range r).map (fun i => b.peek (c + r - i)) := by
  intro r
  induction r with
  | zero =>
    intro _
    rw [iterFrom_succ, if_pos ?_]
    · simp
    · simp [itEq, Nat.mod_eq_of_lt hc]
  | succ r ih =>
    intro hr
    rw [iterFrom_succ]
    have he : ¬ (itEq ⟨(c + (r + 1)) % 256, 256 - (r + 1)⟩ ⟨c, 0⟩ = true) := by
      rcases Nat.lt_or_ge (r + 1) 256 with h | h
      · have hne : (c + (r + 1)) % 256 ≠ c := by omega
        simp [itEq, hne]
      · have h256 : r + 1 = 256 := by omega
        simp [itEq, h256]
    rw [if_neg he]
    have hit : itIncr ⟨(c + (r + 1)) % 256, 256 - (r + 1)⟩ =
        ⟨(c + r) % 256, 256 - r⟩ := by
      unfold itIncr
      dsimp only
      congr 1
      · rw [increment_neg_one]
        omega
      · omega
    rw [hit, ih (by omega)]
    rw [List.range_succ_eq_map, List.map_cons, List.map_map]
    dsimp only
    congr 1
    · exact peek_congr b (by omega)
    · apply List.map_congr_left
      intro i _
      show b.peek (c + r - i) = b.peek (c + (r + 1) - (i + 1))
      exact peek_congr b (by omega)

/-- Traversal of a fully written buffer: 256 entries, newest first. -/
theorem iterEvents_all_written (b : EventBuffer) (hb : b.current < 256)
    (hw : ∀ j : Fin 256, (b.events j).written = true) :
    iterEvents b = (List.range 256).map (fun i => b.peek (b.current + 256 - i)) := by
  unfold iterEvents EventBuffer.rbegin
  rw [rend_all_written b hb hw]
  have h := iterFrom_full b b.current hb 256 (le_refl 256)
  rw [show (b.current + 256) % 256 = b.current by omega] at h
  exact h

theorem getElem_idx_congr {l : List Event} {a b : Nat} (ha : a < l.length)
    (hb : b < l.length) (hab : a = b) : l[a] = l[b] := by
  subst hab
  rfl

/-- C3: pushing `capacity` or more written events into a fresh buffer and
then traversing from `rbegin()` to `rend()` yields exactly the most recent
256 pushed events, newest first (earlier events are lost). -/
theorem c3_ring_roundtrip (L : List Event) (hL : 256 ≤ L.length)
    (hw : ∀ e ∈ L, e.written = true) :
    iterEvents (pushList freshBuffer L) =
      (L.drop (L.length - 256)).reverse := by
  have hfresh : freshBuffer.current < 256 := by
    norm_num [freshBuffer, EventBuffer.current]
  have hBc : (pushList freshBuffer L).current = (255 + L.length) % 256 :=
    pushList_current L freshBuffer hfresh
  have hBlt : (pushList freshBuffer L).current < 256 := by omega
  have hWr : ∀ j : Fin 256, ((pushList freshBuffer L).events j).written = true :=
    pushList_all_written L hL hw freshBuffer hfresh
  rw [iterEvents_all_written _ hBlt hWr]
  apply List.ext_getElem
  · simp only [List.length_map, List.length_range, List.length_reverse,
      List.length_drop]
    omega
  · intro i h1 h2
    simp only [List.length_map, List.length_range] at h1
    rw [List.getElem_map, List.getElem_range]
    have hLhs : (pushList freshBuffer L).peek
        ((pushList freshBuffer L).current + 256 - i) =
        L.getD (L.length - 1 - i) default := by
      rw [peek_congr _ (show
          ((pushList freshBuffer L).current + 256 - i) % 256 =
            (freshBuffer.current + L.length - i) % 256 by
        rw [hBc]
        show ((255 + L.length) % 256 + 256 - i) % 256 = (255 + L.length - i) % 256
        omega)]
      exact pushList_slot L freshBuffer hfresh i (by omega) h1
    rw [hLhs, List.getD_eq_getElem _ _ (by omega)]
    rw [List.getElem_reverse, List.getElem_drop]
    have hb1 : L.length - 1 - i < L.length := by omega
    have hb2 : L.length - 256 + ((L.drop (L.length - 256)).length - 1 - i) <
        L.length := by
      simp only [List.length_drop]
      omega
    exact getElem_idx_congr hb1 hb2 (by
      simp only [List.length_drop]
      omega)

/-- A sample written event for the closed witnesses. -/
def wEv : Event := { fmt := some 0, timestamp := 7 }

theorem c3_ring_roundtrip_witness :
    (256 ≤ (List.replicate 256 wEv).length ∧
      ∀ e ∈ List.replicate 256 wEv, e.written = true) ∧
    iterEvents (pushList freshBuffer (List.replicate 256 wEv)) =
      ((List.replicate 256 wEv).drop
        ((List.replicate 256 wEv).length - 256)).reverse := by
  have h1 : 256 ≤ (List.replicate 256 wEv).length := by
    rw [List.length_replicate]
  have h2 : ∀ e ∈ List.replicate 256 wEv, e.written = true := by
    intro e he
    rw [List.eq_of_mem_replicate he]
    rfl
  exact ⟨⟨h1, h2⟩, c3_ring_roundtrip _ h1 h2⟩


/-! ## Chronological merge (`dump_event_buffers`) and claims C4, C6, C10 -/

/-- One iteration of the selection scan in `dump_event_buffers` for cursor
`i`: the accumulator holds `(latest_itor, latest_timestamp)` (initially
`(none, 0)`, i.e. `latest_itor == count`), and a live cursor whose entry is
written and has `timestamp >= latest_timestamp` replaces the candidate. -/
def scanStep (acc : Option Nat × Nat) (i : Nat) (o : Option Event) :
    Option Nat × Nat :=
  match o with
  | none => acc
  | some e =>
    if e.written && decide (acc.2 ≤ e.timestamp) then (some i, e.timestamp) else acc

/-- The full scan over the two cursors (`count = 2`), returning the selected
buffer index, or `none` when every cursor is exhausted or unwritten. -/
def findLatest (o0 o1 : Option Event) : Option Nat :=
  (scanStep (scanStep (none, 0) 0 o0) 1 o1).1

/-- The entry a cursor currently offers: `none` when `itor[i] == end[i]`,
otherwise the dereferenced event.  The written check (`*itor[i]`) is part of
`scanStep`, matching the source's conjunction. -/
def liveEntry (b : EventBuffer) (it en : ConstReverseIterator) : Option Event :=
  if itEq it en then none else some (b.peek it.current)

/-- The main loop of `dump_event_buffers`: select via the scan, emit the pair
(buffer index, event) — modelling the `print` call — and advance only the
selected cursor.  Fuel bounds the number of iterations; `520` is ample for
every emission pattern of two 256-slot buffers. -/
def mergeLoop (b0 b1 : EventBuffer) :
    Nat → ConstReverseIterator → ConstReverseIterator →
    ConstReverseIterator → ConstReverseIterator → List (Nat × Event)
  | 0, _, _, _, _ => []
  | fuel + 1, it0, it1, en0, en1 =>
    match findLatest (liveEntry b0 it0 en0) (liveEntry b1 it1 en1) with
    | none => []
    | some 0 =>
      (0, b0.peek it0.current) :: mergeLoop b0 b1 fuel (itIncr it0) it1 en0 en1
    | some (_ + 1) =>
      (1, b1.peek it1.current) :: mergeLoop b0 b1 fuel it0 (itIncr it1) en0 en1

/-- `dump_event_buffers` on two buffers, starting from `rbegin()`/`rend()`. -/
def dumpMerge (b0 b1 : EventBuffer) : List (Nat × Event) :=
  mergeLoop b0 b1 520 b0.rbegin b1.rbegin b0.rend b1.rend

theorem mergeLoop_succ (b0 b1 : EventBuffer) (fuel : Nat)
    (it0 it1 en0 en1 : ConstReverseIterator) :
    mergeLoop b0 b1 (fuel + 1) it0 it1 en0 en1 =
      match findLatest (liveEntry b0 it0 en0) (liveEntry b1 it1 en1) with
      | none => []
      | some 0 =>
        (0, b0.peek it0.current) :: mergeLoop b0 b1 fuel (itIncr it0) it1 en0 en1
      | some (_ + 1) =>
        (1, b1.peek it1.current) :: mergeLoop b0 b1 fuel it0 (itIncr it1) en0 en1 := rfl

/-- C4 (amended): when both cursors are live and offer written entries with
equal (hence equal maximal) timestamps, the scan's `>=` comparison keeps the
last maximal candidate, so the entry from the highest-indexed buffer (index 1)
is selected and emitted before the lower-indexed one, and only that cursor
advances. -/
theorem c4_tie_goes_to_highest_index (b0 b1 : EventBuffer)
    (it0 it1 en0 en1 : ConstReverseIterator) (fuel : Nat)
    (h0 : itEq it0 en0 = false) (h1 : itEq it1 en1 = false)
    (hw0 : (b0.peek it0.current).written = true)
    (hw1 : (b1.peek it1.current).written = true)
    (hts : (b0.peek it0.current).timestamp = (b1.peek it1.current).timestamp) :
    mergeLoop b0 b1 (fuel + 1) it0 it1 en0 en1 =
      (1, b1.peek it1.current) :: mergeLoop b0 b1 fuel it0 (itIncr it1) en0 en1 := by
  have hfl : findLatest (liveEntry b0 it0 en0) (liveEntry b1 it1 en1) = some 1 := by
    unfold liveEntry
    rw [if_neg (by simp [h0]), if_neg (by simp [h1])]
    unfold findLatest scanStep
    dsimp only
    simp [hw0, hw1, hts]
  rw [mergeLoop_succ, hfl]

/-- Events with tied timestamps for the C4 counterexample. -/
def evT0 : Event := { fmt := some 10, timestamp := 5 }

def evT1 : Event := { fmt := some 11, timestamp := 5 }

def bufT0 : EventBuffer := pushList freshBuffer [evT0]

def bufT1 : EventBuffer := pushList freshBuffer [evT1]

set_option maxRecDepth 40000 in
/-- C4 counterexample: two live cursors whose current entries carry equal
maximal timestamps; `dump_event_buffers` emits the buffer-1 entry first, not
the buffer-0 entry as the claim states. -/
theorem c4_counterexample :
    evT0.timestamp = evT1.timestamp ∧
    dumpMerge bufT0 bufT1 = [(1, evT1), (0, evT0)] := by
  constructor
  · rfl
  · decide

set_option maxRecDepth 40000 in
theorem c4_tie_goes_to_highest_index_witness :
    (itEq bufT0.rbegin bufT0.rend = false ∧
     itEq bufT1.rbegin bufT1.rend = false ∧
     (bufT0.peek bufT0.rbegin.current).written = true ∧
     (bufT1.peek bufT1.rbegin.current).written = true ∧
     (bufT0.peek bufT0.rbegin.current).timestamp =
       (bufT1.peek bufT1.rbegin.current).timestamp) ∧
    mergeLoop bufT0 bufT1 (1 + 1) bufT0.rbegin bufT1.rbegin bufT0.rend bufT1.rend =
      (1, bufT1.peek bufT1.rbegin.current) ::
        mergeLoop bufT0 bufT1 1 bufT0.rbegin (itIncr bufT1.rbegin)
          bufT0.rend bufT1.rend := by
  refine ⟨⟨by decide, by decide, by decide, by decide, by decide⟩, ?_⟩
  exact c4_tie_goes_to_highest_index bufT0 bufT1 bufT0.rbegin bufT1.rbegin
    bufT0.rend bufT1.rend 1 (by decide) (by decide) (by decide) (by decide)
    (by decide)

/-- The concrete buffers of claim C6. -/
def evA0 : Event := { fmt := some 1, timestamp := 10 }

def evA1 : Event := { fmt := some 2, timestamp := 30 }

def evA2 : Event := { fmt := some 3, timestamp := 50 }

def evB0 : Event := { fmt := some 4, timestamp := 20 }

def evB1 : Event := { fmt := some 5, timestamp := 40 }

def bufA : EventBuffer := pushList freshBuffer [evA0, evA1, evA2]

def bufB : EventBuffer := pushList freshBuffer [evB0, evB1]

set_option maxRecDepth 40000 in
/-- C6: merging buffer A = [10, 30, 50] (oldest to newest) with buffer B =
[20, 40] emits exactly five events in timestamp order 50, 40, 30, 20, 10,
tagged with originating buffer indices 0, 1, 0, 1, 0. -/
theorem c6_concrete_merge :
    dumpMerge bufA bufB =
      [(0, evA2), (1, evB1), (0, evA1), (1, evB0), (0, evA0)] := by
  decide

/-- The do-while seek of `rend` finds a written slot within its fuel whenever
some slot at offset `1..fuel` from the start position is written. -/
theorem seekOldest_succeeds : ∀ (fuel : Nat) (b : EventBuffer) (pos : Nat),
    (∃ j, 1 ≤ j ∧ j ≤ fuel ∧ (b.peek (pos + j)).written = true) →
    (seekOldest b fuel pos).isSome = true := by
  intro fuel
  induction fuel with
  | zero =>
    rintro b pos ⟨j, h1, h2, _⟩
    omega
  | succ fuel ih =>
    rintro b pos ⟨j, h1, h2, hw⟩
    rw [seekOldest_succ]
    by_cases hnext : (b.peek (increment pos 1)).written = true
    · rw [if_pos hnext]
      rfl
    · rw [if_neg hnext]
      rcases Nat.eq_or_lt_of_le h1 with rfl | hj2
      · exact absurd (by
          rw [peek_congr b (show (increment pos 1) % 256 = (pos + 1) % 256 by
            rw [increment_one]
            omega)]
          exact hw) hnext
      · refine ih b (increment pos 1) ⟨j - 1, by omega, by omega, ?_⟩
        rw [peek_congr b (show (increment pos 1 + (j - 1)) % 256 =
            (pos + j) % 256 by
          rw [increment_one]
          omega)]
        exact hw

/-- C10: `rend()` terminates on every buffer reachable by pushes from a fresh
buffer.  When the slot at `m_current` is unwritten, the empty-buffer special
case returns directly without entering the seek loop; when it is written, the
do-while seek finds a written slot within at most `BUFFER_SIZE = 256`
increments (it reaches `m_current` itself after 256 steps). -/
theorem c10_rend_terminates (L : List Event) :
    (((pushList freshBuffer L).peek (pushList freshBuffer L).current).written = false →
      (pushList freshBuffer L).rend =
        itIncr ⟨(if (pushList freshBuffer L).current + 1 = 256 then 0
                 else (pushList freshBuffer L).current + 1), 0⟩) ∧
    (((pushList freshBuffer L).peek (pushList freshBuffer L).current).written = true →
      (seekOldest (pushList freshBuffer L) 256
        (pushList freshBuffer L).current).isSome = true) := by
  constructor
  · intro h
    unfold EventBuffer.rend
    rw [if_neg (by simp [h])]
  · intro h
    refine seekOldest_succeeds 256 _ _ ⟨256, by omega, by omega, ?_⟩
    rw [peek_congr _ (show ((pushList freshBuffer L).current + 256) % 256 =
        (pushList freshBuffer L).current % 256 by omega)]
    exact h

set_option maxRecDepth 40000 in
theorem c10_rend_terminates_witness :
    (((pushList freshBuffer []).peek (pushList freshBuffer []).current).written = false ∧
      (pushList freshBuffer []).rend =
        itIncr ⟨(if (pushList freshBuffer []).current + 1 = 256 then 0
                 else (pushList freshBuffer []).current + 1), 0⟩) ∧
    (((pushList freshBuffer [wEv]).peek
        (pushList freshBuffer [wEv]).current).written = true ∧
      (seekOldest (pushList freshBuffer [wEv]) 256
        (pushList freshBuffer [wEv]).current).isSome = true) := by
  refine ⟨⟨by decide, (c10_rend_terminates []).1 (by decide)⟩,
    ⟨by decide, (c10_rend_terminates [wEv]).2 (by decide)⟩⟩

end Playground
